import Mathlib

/-!
# Verification of the workflow cost estimator (actions-cost-guard)

Shallow embedding of the estimator core: input sanitizer, workflow
scanner, cost aggregator and policy evaluator, translated from the
TypeScript source (`estimator.ts`).  Strings are modelled as `List Char`
and JavaScript numbers as exact rationals (`ℚ`), with non-finite values
(`NaN`, `±Infinity`) collapsed into `Option.none`.
-/

namespace CostGuard

/-- Strings from the source are modelled as lists of characters. -/
abbrev Str := List Char

/-- JavaScript whitespace: the character class `\s`, which coincides with
the set trimmed by `String.prototype.trim` (WhiteSpace ∪ LineTerminator). -/
def isJsWhite (c : Char) : Bool :=
  let n := c.toNat
  n == 9 || n == 10 || n == 11 || n == 12 || n == 13 || n == 32 ||
  n == 0xa0 || n == 0x1680 || (0x2000 ≤ n && n ≤ 0x200a) ||
  n == 0x2028 || n == 0x2029 || n == 0x202f || n == 0x205f ||
  n == 0x3000 || n == 0xfeff

/-- JavaScript line terminators (the characters `.` does not match). -/
def isLineTerm (c : Char) : Bool :=
  let n := c.toNat
  n == 10 || n == 13 || n == 0x2028 || n == 0x2029

/-- The regex character class `[a-zA-Z0-9_-]`, by code points. -/
def isIdentChar (c : Char) : Bool :=
  let n := c.toNat
  (48 ≤ n && n ≤ 57) || (65 ≤ n && n ≤ 90) || (97 ≤ n && n ≤ 122) || n == 95 || n == 45

/-- `String.prototype.trim`: drop JS whitespace from both ends. -/
def jsTrim (l : Str) : Str :=
  ((l.dropWhile isJsWhite).reverse.dropWhile isJsWhite).reverse

/-- ASCII lowercasing, as `toLowerCase` acts on the identifiers involved. -/
def jsToLower (c : Char) : Char :=
  if 'A' ≤ c && c ≤ 'Z' then Char.ofNat (c.toNat + 32) else c

/-- `pat` is a prefix of `text`. -/
def startsWithS : Str → Str → Bool
  | [], _ => true
  | _ :: _, [] => false
  | p :: ps, t :: ts => p == t && startsWithS ps ts

/-- `String.prototype.includes`: `pat` occurs contiguously in `text`. -/
def containsSub (pat : Str) : Str → Bool
  | [] => pat.isEmpty
  | c :: rest => startsWithS pat (c :: rest) || containsSub pat rest

/-- `workflowYaml.split(/\r?\n/)`: split at `\n`, also consuming a `\r`
directly before it; a lone `\r` stays inside its line. -/
def splitLines : Str → List Str
  | [] => [[]]
  | '\r' :: '\n' :: rest => [] :: splitLines rest
  | '\n' :: rest => [] :: splitLines rest
  | c :: rest =>
    match splitLines rest with
    | [] => [[c]]
    | l :: ls => (c :: l) :: ls

/-- `rawLine.replace(/#.*$/, "")`: the regex matches from the first `#`
after the last line terminator through the end of the string, so the cut
happens only in the final line-terminator-free segment. -/
def stripComment (l : Str) : Str :=
  let relevant := (l.reverse.takeWhile (fun c => !isLineTerm c)).reverse
  if containsSub ['#'] relevant then
    l.take (l.length - relevant.length) ++ relevant.takeWhile (fun c => c ≠ '#')
  else l

/-- `Number.EPSILON = 2⁻⁵²`. -/
def jsEpsilon : ℚ := 1 / 4503599627370496

/-- `Math.round`: round half toward `+∞`. -/
def jsRound (x : ℚ) : ℤ := ⌊x + 1 / 2⌋

/-- `roundMoney(value) = Math.round((value + Number.EPSILON) * 100) / 100`. -/
def roundMoney (value : ℚ) : ℚ :=
  (jsRound ((value + jsEpsilon) * 100) : ℚ) / 100

/-- `parseRunsOn`: trim, lowercase, then substring-match the runner OS
on the normalized value. -/
def parseRunsOn (raw : Str) : String :=
  if containsSub "windows".toList ((jsTrim raw).map jsToLower) then "windows"
  else if containsSub "macos".toList ((jsTrim raw).map jsToLower)
      || containsSub "mac".toList ((jsTrim raw).map jsToLower) then "macos"
  else "linux"

/-- Head-of-list colon test shared by the prefix-only regexes. -/
def headIsColon : Str → Bool
  | ':' :: _ => true
  | _ => false

/-- `/^jobs\s*:/.test(trimmed)`. -/
def isJobsMarker (trimmed : Str) : Bool :=
  startsWithS "jobs".toList trimmed &&
  headIsColon ((trimmed.drop 4).dropWhile isJsWhite)

/-- `/^\s{2}[a-zA-Z0-9_-]+\s*:\s*$/.test(line)`: two JS-whitespace
characters, a nonempty identifier, optional whitespace, a colon, then
only whitespace to the end.  The character classes involved are pairwise
disjoint, so maximal munch realises the regex exactly. -/
def isJobHeader (l : Str) : Bool :=
  match l with
  | c1 :: c2 :: rest =>
    isJsWhite c1 && isJsWhite c2 &&
    (let ident := rest.takeWhile isIdentChar
     !ident.isEmpty &&
     (match (rest.drop ident.length).dropWhile isJsWhite with
      | ':' :: tail => tail.all isJsWhite
      | _ => false))
  | _ => false

/-- Tail part of `\s*(.+)\s*$`: a capture is a nonempty run of
non-line-terminator characters followed by whitespace only. -/
def capMatch (t : Str) : Option Str :=
  let b := t.takeWhile (fun c => !isLineTerm c)
  if !b.isEmpty && (t.drop b.length).all isJsWhite then some b else none

/-- Backtracking loop for `\s*(.+)\s*$`: starting from the greedy
(maximal) whitespace prefix, give characters back one at a time until
the remainder admits a capture. `ws` holds the still-consumed whitespace
in reverse order. -/
def giveBack : Str → Str → Option Str
  | ws, t =>
    match capMatch t with
    | some b => some b
    | none =>
      match ws with
      | [] => none
      | w :: ws2 => giveBack ws2 (w :: t)

/-- `line.match(/^\s{4}runs-on\s*:\s*(.+)\s*$/)`, returning the capture. -/
def matchRunsOn (l : Str) : Option Str :=
  match l with
  | c1 :: c2 :: c3 :: c4 :: rest =>
    if isJsWhite c1 && isJsWhite c2 && isJsWhite c3 && isJsWhite c4 &&
        startsWithS "runs-on".toList rest then
      let afterKw := rest.drop 7
      match afterKw.dropWhile isJsWhite with
      | ':' :: tail =>
        let ws := tail.takeWhile isJsWhite
        giveBack ws.reverse (tail.drop ws.length)
      | _ => none
    else none
  | _ => none

/-- The `<kw>\s*:` tail of the step regex: the keyword, optional
whitespace, then a colon. -/
def kwColon (kw : Str) (r3 : Str) : Bool :=
  startsWithS kw r3 && headIsColon ((r3.drop kw.length).dropWhile isJsWhite)

/-- `/^\s{6}-\s+<kw>\s*:/.test(line)` for `kw` ∈ {`uses`, `run`}: six
JS-whitespace characters, a dash, at least one whitespace character
(the first one explicit, the rest absorbed greedily), then the keyword
and its colon. -/
def isStepLine (kw : Str) (l : Str) : Bool :=
  match l with
  | c1 :: c2 :: c3 :: c4 :: c5 :: c6 :: d :: w :: r2 =>
    isJsWhite c1 && isJsWhite c2 && isJsWhite c3 && isJsWhite c4 &&
    isJsWhite c5 && isJsWhite c6 && d == '-' && isJsWhite w &&
    kwColon kw (r2.dropWhile isJsWhite)
  | _ => false

/-- Scanner job record: `{ os, steps, minutes }`. -/
structure PJob where
  os : String
  steps : Nat
  minutes : ℚ
deriving DecidableEq

/-- The loop body of `parseJobsAndSteps`, scanning the remaining lines with
the current state (`inJobs`, `currentJob`, accumulated `jobs`). -/
def scanLines : List Str → Bool → Option PJob → List PJob → List PJob
  | [], _, cur, acc =>
    match cur with
    | some j => acc ++ [j]
    | none => acc
  | rawLine :: rest, inJobs, cur, acc =>
    let line := stripComment rawLine
    let trimmed := jsTrim line
    if !inJobs && isJobsMarker trimmed then
      scanLines rest true cur acc
    else if !inJobs || trimmed.isEmpty then
      scanLines rest inJobs cur acc
    else if isJobHeader line then
      scanLines rest inJobs (some ⟨"linux", 0, 2⟩)
        (match cur with
         | some j => acc ++ [j]
         | none => acc)
    else
      match cur with
      | none => scanLines rest inJobs none acc
      | some j =>
        match matchRunsOn line with
        | some v => scanLines rest inJobs (some ⟨parseRunsOn v, j.steps, j.minutes⟩) acc
        | none =>
          if isStepLine "uses".toList line then
            scanLines rest inJobs (some ⟨j.os, j.steps + 1, j.minutes + 3 / 2⟩) acc
          else if isStepLine "run".toList line then
            scanLines rest inJobs (some ⟨j.os, j.steps + 1, j.minutes + 3⟩) acc
          else
            scanLines rest inJobs (some j) acc

/-- `parseJobsAndSteps`: scan the lines; substitute the synthetic default
job when nothing was recognized. -/
def parseJobsAndSteps (workflowYaml : Str) : List PJob :=
  if (scanLines (splitLines workflowYaml) false none []).isEmpty then [⟨"linux", 3, 17 / 2⟩]
  else scanLines (splitLines workflowYaml) false none []

/-- Per-OS aggregate entry (`OsEstimate`). -/
structure OsEstimate where
  os : String
  jobs : Nat
  stepCount : Nat
  minutesPerRun : ℚ
  costPerRunUsd : ℚ
deriving DecidableEq

/-- `OS_RATE_PER_MINUTE_USD[job.os] ?? OS_RATE_PER_MINUTE_USD.linux`. -/
def rateFor (os : String) : ℚ :=
  if os = "linux" then 8 / 1000
  else if os = "windows" then 16 / 1000
  else if os = "macos" then 8 / 100
  else 8 / 1000

/-- One iteration of the `aggregateByOs` loop: update the entry keyed by
`job.os` in place, or append a fresh entry (JS `Map` preserves first
insertion order). -/
def updateOrAppend : List OsEstimate → PJob → List OsEstimate
  | [], job => [⟨job.os, 1, job.steps, job.minutes, job.minutes * rateFor job.os⟩]
  | e :: es, job =>
    if e.os = job.os then
      ⟨e.os, e.jobs + 1, e.stepCount + job.steps, e.minutesPerRun + job.minutes,
        e.costPerRunUsd + job.minutes * rateFor job.os⟩ :: es
    else
      e :: updateOrAppend es job

/-- `aggregateByOs`: group jobs by OS at full precision, rounding
`minutesPerRun` and `costPerRunUsd` only at emission. -/
def aggregateByOs (jobs : List PJob) : List OsEstimate :=
  (jobs.foldl updateOrAppend []).map fun e =>
    ⟨e.os, e.jobs, e.stepCount, roundMoney e.minutesPerRun, roundMoney e.costPerRunUsd⟩

/-- The policy mode enum: `"warn" | "block"`. -/
inductive PolicyMode where
  | warn
  | block
deriving DecidableEq

/-- The policy decision: `"pass" | "warn" | "block"`. -/
inductive Decision where
  | pass
  | warn
  | block
deriving DecidableEq

/-- Embedding of a `PolicyMode` string into the decision strings. -/
def PolicyMode.toDecision : PolicyMode → Decision
  | .warn => .warn
  | .block => .block

/-- Validated `EstimateInput`.  JS numbers are exact rationals here. -/
structure EstimateInput where
  workflowYaml : Str
  monthlyRuns : ℚ
  budgetUsd : ℚ
  policyMode : PolicyMode
deriving DecidableEq

/-- The four accumulators of the summary loop in `estimateWorkflowCost`. -/
structure Totals where
  minutesPerRun : ℚ
  costPerRunUsd : ℚ
  jobs : Nat
  stepCount : Nat
deriving DecidableEq

/-- One iteration of the summary loop: add an `OsEstimate`'s fields. -/
def addEntry (t : Totals) (e : OsEstimate) : Totals :=
  ⟨t.minutesPerRun + e.minutesPerRun, t.costPerRunUsd + e.costPerRunUsd,
    t.jobs + e.jobs, t.stepCount + e.stepCount⟩

/-- The `summary` part of an `EstimateResult`. -/
structure Summary where
  jobs : Nat
  stepCount : Nat
  minutesPerRun : ℚ
  costPerRunUsd : ℚ
  monthlyRuns : ℚ
  monthlyCostUsd : ℚ
  budgetUsd : ℚ
  policyMode : PolicyMode
  policyDecision : Decision
deriving DecidableEq

/-- `EstimateResult`. -/
structure EstimateResult where
  summary : Summary
  byOs : List OsEstimate
  assumptions : List String
deriving DecidableEq

/-- `estimateWorkflowCost`: scan, aggregate, sum, price, decide. -/
def estimateWorkflowCost (input : EstimateInput) : EstimateResult :=
  let jobs := parseJobsAndSteps input.workflowYaml
  let byOs := aggregateByOs jobs
  let t := byOs.foldl addEntry ⟨0, 0, 0, 0⟩
  let monthlyCostUsd := roundMoney (t.costPerRunUsd * input.monthlyRuns)
  let policyDecision :=
    if input.budgetUsd < monthlyCostUsd then input.policyMode.toDecision else Decision.pass
  { summary :=
      { jobs := t.jobs
        stepCount := t.stepCount
        minutesPerRun := roundMoney t.minutesPerRun
        costPerRunUsd := roundMoney t.costPerRunUsd
        monthlyRuns := input.monthlyRuns
        monthlyCostUsd := monthlyCostUsd
        budgetUsd := input.budgetUsd
        policyMode := input.policyMode
        policyDecision := policyDecision }
    byOs := byOs
    assumptions :=
      ["Default base runtime is 2 minutes per job before step costs.",
       "Step runtime assumptions: uses=1.5m, run=3m.",
       "Hosted runner rates used: Linux $0.008/min, Windows $0.016/min, macOS $0.08/min.",
       "Matrix expansion is not modeled explicitly unless represented as separate jobs in YAML."] }

/-! ## The input sanitizer

Raw payload fields are JS values: a string, a number (`Option ℚ`, with
`none` standing for the non-finite values `NaN` and `±Infinity`), or any
other value, represented by its `String(v)` coercion — the code inspects
values only through `typeof v === "string" / "number"` and `String(v)`. -/

/-- A raw JS field value as the sanitizer can observe it. -/
inductive JsValue where
  | str (s : Str)
  | num (n : Option ℚ)
  | other (coerced : Str)
deriving DecidableEq

/-- The raw field bag passed to `sanitizeEstimateInput`. -/
structure Payload where
  workflowYaml : JsValue
  monthlyRuns : JsValue
  budgetUsd : JsValue
  policyMode : JsValue
deriving DecidableEq

/-- Decimal digit run → value. -/
def digitsToNat (l : Str) : Nat :=
  l.foldl (fun a c => a * 10 + (c.toNat - 48)) 0

/-- The exponent part `[eE][+-]?digits` of a float literal; an `e` not
followed by digits contributes no exponent. -/
def parseExpPart (rest : Str) : ℤ :=
  match rest with
  | '+' :: r =>
    let d := r.takeWhile Char.isDigit
    if d.isEmpty then 0 else (digitsToNat d : ℤ)
  | '-' :: r =>
    let d := r.takeWhile Char.isDigit
    if d.isEmpty then 0 else -(digitsToNat d : ℤ)
  | r =>
    let d := r.takeWhile Char.isDigit
    if d.isEmpty then 0 else (digitsToNat d : ℤ)

/-- The unsigned decimal part of `parseFloat`: `digits ['.' digits?]` or
`'.' digits`, with an optional exponent; `none` when no digits occur. -/
def parseDecimalValue (sign : ℚ) (t : Str) : Option ℚ :=
  let intD := t.takeWhile Char.isDigit
  let r1 := t.drop intD.length
  let fracD :=
    match r1 with
    | '.' :: r => r.takeWhile Char.isDigit
    | _ => []
  let r2 :=
    match r1 with
    | '.' :: r => r.drop (r.takeWhile Char.isDigit).length
    | _ => r1
  if intD.isEmpty && fracD.isEmpty then none
  else
    let mant : ℚ := (digitsToNat intD : ℚ) + (digitsToNat fracD : ℚ) / ((10 : ℚ) ^ fracD.length)
    let expVal : ℤ :=
      match r2 with
      | 'e' :: rest => parseExpPart rest
      | 'E' :: rest => parseExpPart rest
      | _ => 0
    some (sign * mant * (10 : ℚ) ^ expVal)

/-- `Number.parseFloat`, idealized over exact rationals: skip leading
whitespace, parse an optional sign and the longest decimal-literal
prefix; `Infinity` and unparsable input are non-finite (`none`). -/
def parseFloat (s : Str) : Option ℚ :=
  let t := s.dropWhile isJsWhite
  match t with
  | '-' :: r => if startsWithS "Infinity".toList r then none else parseDecimalValue (-1) r
  | '+' :: r => if startsWithS "Infinity".toList r then none else parseDecimalValue 1 r
  | r => if startsWithS "Infinity".toList r then none else parseDecimalValue 1 r

/-- `typeof raw === "number" ? raw : Number.parseFloat(String(raw))`. -/
def toNumber (v : JsValue) : Option ℚ :=
  match v with
  | .num n => n
  | .str s => parseFloat s
  | .other coerced => parseFloat coerced

/-- The closed error taxonomy of the sanitizer. -/
inductive SanitizeError where
  | invalid_workflow_yaml
  | invalid_monthly_runs
  | invalid_budget_usd
  | invalid_policy_mode
deriving DecidableEq

/-- `typeof payload.workflowYaml === "string" ? payload.workflowYaml.trim() : ""`. -/
def trimmedWorkflow (v : JsValue) : Str :=
  match v with
  | .str s => jsTrim s
  | _ => []

/-- `typeof payload.policyMode === "string" ? payload.policyMode.trim().toLowerCase() : ""`. -/
def normalizedMode (v : JsValue) : Str :=
  match v with
  | .str s => (jsTrim s).map jsToLower
  | _ => []

/-- `sanitizeEstimateInput`: validate and normalize the raw field bag. -/
def sanitizeEstimateInput (payload : Payload) : Except SanitizeError EstimateInput :=
  if (trimmedWorkflow payload.workflowYaml).isEmpty
      || (trimmedWorkflow payload.workflowYaml).length > 100000 then
    .error .invalid_workflow_yaml
  else
    match toNumber payload.monthlyRuns with
    | none => .error .invalid_monthly_runs
    | some monthlyRuns =>
      if monthlyRuns ≤ 0 ∨ 1000000 < monthlyRuns then .error .invalid_monthly_runs
      else
        match toNumber payload.budgetUsd with
        | none => .error .invalid_budget_usd
        | some budgetUsd =>
          if budgetUsd ≤ 0 ∨ 1000000 < budgetUsd then .error .invalid_budget_usd
          else
            if normalizedMode payload.policyMode = "warn".toList then
              .ok ⟨trimmedWorkflow payload.workflowYaml, (jsRound monthlyRuns : ℚ),
                roundMoney budgetUsd, .warn⟩
            else if normalizedMode payload.policyMode = "block".toList then
              .ok ⟨trimmedWorkflow payload.workflowYaml, (jsRound monthlyRuns : ℚ),
                roundMoney budgetUsd, .block⟩
            else
              .error .invalid_policy_mode

/-! ## Specification-side definitions

These definitions render sentences of the specification (not the code);
they exist to be compared with the embedded code above. -/

/-- The job-header pattern claimed by the specification,
`^  [A-Za-z0-9_-]+:\s*$`: exactly two literal space characters, an
identifier, then a colon immediately (no whitespace in between). -/
def claimJobHeader (l : Str) : Bool :=
  match l with
  | ' ' :: ' ' :: rest =>
    let ident := rest.takeWhile isIdentChar
    !ident.isEmpty &&
    (match rest.drop ident.length with
     | ':' :: tail => tail.all isJsWhite
     | _ => false)
  | _ => false

/-- Declarative reading of the job-header pattern the code actually
uses, `^\s{2}[a-zA-Z0-9_-]+\s*:\s*$`: two JS-whitespace characters (not
necessarily spaces), a nonempty identifier, optional whitespace, a
colon, then trailing whitespace. -/
def JobHeaderShape (l : Str) : Prop :=
  ∃ w1 w2 ident gap trail,
    l = w1 :: w2 :: (ident ++ gap ++ ':' :: trail) ∧
    isJsWhite w1 = true ∧ isJsWhite w2 = true ∧
    ident ≠ [] ∧ (∀ c ∈ ident, isIdentChar c = true) ∧
    (∀ c ∈ gap, isJsWhite c = true) ∧ (∀ c ∈ trail, isJsWhite c = true)

/-- A rational is on the cent grid (an integer number of hundredths). -/
def isCents (q : ℚ) : Prop := ∃ k : ℤ, q = (k : ℚ) / 100

/-- The runner OS values the scanner can produce. -/
def osOk (os : String) : Prop := os = "linux" ∨ os = "windows" ∨ os = "macos"

/-- The concrete Scenario B workflow: an `ubuntu-latest` job with two
`uses` steps and one `run` step, and a `windows-latest` job with one
`uses` step, at spec-conforming indentation. -/
def scenarioBYaml : Str :=
  ("jobs:\n  build:\n    runs-on: ubuntu-latest\n    steps:\n      - uses: a\n" ++
   "      - uses: b\n      - run: c\n  win:\n    runs-on: windows-latest\n" ++
   "    steps:\n      - uses: d").toList

end CostGuard

deriving instance DecidableEq for Except

namespace CostGuard

/-! ## Rounding and cent-grid lemmas -/

theorem roundMoney_isCents (v : ℚ) : isCents (roundMoney v) :=
  ⟨jsRound ((v + jsEpsilon) * 100), rfl⟩

theorem isCents_add {a b : ℚ} (ha : isCents a) (hb : isCents b) : isCents (a + b) := by
  obtain ⟨k, rfl⟩ := ha
  obtain ⟨m, rfl⟩ := hb
  exact ⟨k + m, by push_cast; ring⟩

theorem isCents_zero : isCents 0 :=
  ⟨0, by norm_num⟩

theorem roundMoney_eq_of_isCents {q : ℚ} (h : isCents q) : roundMoney q = q := by
  obtain ⟨k, rfl⟩ := h
  unfold roundMoney jsRound jsEpsilon
  have h1 : ((k : ℚ) / 100 + 1 / 4503599627370496) * 100 + 1 / 2
      = (k : ℚ) + (100 / 4503599627370496 + 1 / 2) := by ring
  have h2 : ⌊(100 / 4503599627370496 + 1 / 2 : ℚ)⌋ = 0 := by
    rw [Int.floor_eq_zero_iff, Set.mem_Ico]
    norm_num
  rw [h1, Int.floor_int_add, h2]
  push_cast
  ring

theorem sum_isCents {l : List ℚ} (h : ∀ q ∈ l, isCents q) : isCents l.sum := by
  induction l with
  | nil => simpa using isCents_zero
  | cons a as ih =>
    rw [List.sum_cons]
    exact isCents_add (h a (by simp)) (ih fun q hq => h q (by simp [hq]))

/-! ## Summary-loop lemmas -/

theorem foldl_addEntry_minutes (l : List OsEstimate) (t : Totals) :
    (l.foldl addEntry t).minutesPerRun = t.minutesPerRun + (l.map OsEstimate.minutesPerRun).sum := by
  induction l generalizing t with
  | nil => simp
  | cons e es ih => rw [List.foldl_cons, ih]; simp [addEntry]; ring

theorem foldl_addEntry_cost (l : List OsEstimate) (t : Totals) :
    (l.foldl addEntry t).costPerRunUsd = t.costPerRunUsd + (l.map OsEstimate.costPerRunUsd).sum := by
  induction l generalizing t with
  | nil => simp
  | cons e es ih => rw [List.foldl_cons, ih]; simp [addEntry]; ring

theorem foldl_addEntry_jobs (l : List OsEstimate) (t : Totals) :
    (l.foldl addEntry t).jobs = t.jobs + (l.map OsEstimate.jobs).sum := by
  induction l generalizing t with
  | nil => simp
  | cons e es ih => rw [List.foldl_cons, ih]; simp [addEntry]; omega

theorem aggregateByOs_cost_isCents (jobs : List PJob) :
    ∀ e ∈ aggregateByOs jobs, isCents e.costPerRunUsd := by
  intro e he
  unfold aggregateByOs at he
  obtain ⟨e0, _, rfl⟩ := List.mem_map.1 he
  exact roundMoney_isCents _

theorem aggregateByOs_sum_cost_isCents (jobs : List PJob) :
    isCents ((aggregateByOs jobs).map OsEstimate.costPerRunUsd).sum := by
  refine sum_isCents ?_
  intro q hq
  obtain ⟨e, he, rfl⟩ := List.mem_map.1 hq
  exact aggregateByOs_cost_isCents jobs e he

/-- The emitted per-run cost total is exactly the (unrounded) sum of the
per-OS entries: those are already on the cent grid, and `roundMoney`
fixes the cent grid. -/
theorem summary_cost_eq_sum (input : EstimateInput) :
    (estimateWorkflowCost input).summary.costPerRunUsd =
      ((estimateWorkflowCost input).byOs.map OsEstimate.costPerRunUsd).sum := by
  simp only [estimateWorkflowCost]
  rw [foldl_addEntry_cost]
  simp only [zero_add]
  exact roundMoney_eq_of_isCents (aggregateByOs_sum_cost_isCents _)

/-- C1: the policy decision is `pass` exactly when the monthly cost is
within (or equal to) the budget, and mirrors the input's policy mode
when the cost strictly exceeds the budget. -/
theorem policy_decision_rule (input : EstimateInput) :
    (estimateWorkflowCost input).summary.policyDecision =
      if (estimateWorkflowCost input).summary.monthlyCostUsd ≤
          (estimateWorkflowCost input).summary.budgetUsd
      then Decision.pass
      else input.policyMode.toDecision := by
  simp only [estimateWorkflowCost]
  rcases le_or_lt (roundMoney
      (((aggregateByOs (parseJobsAndSteps input.workflowYaml)).foldl addEntry
        ⟨0, 0, 0, 0⟩).costPerRunUsd * input.monthlyRuns)) input.budgetUsd with h | h
  · rw [if_neg (not_lt.2 h), if_pos h]
  · rw [if_pos h, if_neg (not_le.2 h)]

/-- C2: the monthly cost equals the 2-decimal rounding of the emitted
per-run cost total times the monthly run count. -/
theorem monthly_cost_consistency (input : EstimateInput) :
    (estimateWorkflowCost input).summary.monthlyCostUsd =
      roundMoney ((estimateWorkflowCost input).summary.costPerRunUsd *
        (estimateWorkflowCost input).summary.monthlyRuns) := by
  have h := summary_cost_eq_sum input
  simp only [estimateWorkflowCost] at h ⊢
  rw [h, foldl_addEntry_cost]
  simp only [zero_add]

/-- C8: the per-OS cost entries sum to the summary per-run cost within
`0.01` per OS group (in fact exactly: the difference is zero). -/
theorem byos_cost_sum_close (input : EstimateInput) :
    |((estimateWorkflowCost input).byOs.map OsEstimate.costPerRunUsd).sum -
        (estimateWorkflowCost input).summary.costPerRunUsd| ≤
      (1 / 100 : ℚ) * (estimateWorkflowCost input).byOs.length := by
  rw [summary_cost_eq_sum input, sub_self, abs_zero]
  positivity

/-! ## Character classes and list-scanning helpers -/

theorem white_not_ident {c : Char} (h : isJsWhite c = true) : isIdentChar c = false := by
  cases hb : isIdentChar c
  · rfl
  · exfalso
    simp only [isJsWhite, Bool.or_eq_true, Bool.and_eq_true, beq_iff_eq, decide_eq_true_eq] at h
    simp only [isIdentChar, Bool.or_eq_true, Bool.and_eq_true, beq_iff_eq, decide_eq_true_eq] at hb
    omega

theorem takeWhile_append_all {p : Char → Bool} {xs : Str} (ys : Str)
    (h : ∀ a ∈ xs, p a = true) :
    (xs ++ ys).takeWhile p = xs ++ ys.takeWhile p := by
  induction xs with
  | nil => simp
  | cons a as ih =>
    rw [List.cons_append, List.takeWhile_cons, if_pos (h a (by simp)),
      ih fun b hb => h b (by simp [hb])]
    rfl

theorem dropWhile_append_all {p : Char → Bool} {xs : Str} (ys : Str)
    (h : ∀ a ∈ xs, p a = true) :
    (xs ++ ys).dropWhile p = ys.dropWhile p := by
  induction xs with
  | nil => simp
  | cons a as ih =>
    rw [List.cons_append, List.dropWhile_cons, if_pos (h a (by simp))]
    exact ih fun b hb => h b (by simp [hb])

theorem takeWhile_nil_of_head {p : Char → Bool} {c : Char} {cs : Str} (h : p c = false) :
    (c :: cs).takeWhile p = [] := by
  rw [List.takeWhile_cons, if_neg (by simp [h])]

theorem dropWhile_id_of_head {p : Char → Bool} {c : Char} {cs : Str} (h : p c = false) :
    (c :: cs).dropWhile p = c :: cs := by
  rw [List.dropWhile_cons, if_neg (by simp [h])]

theorem drop_takeWhile_length (p : Char → Bool) (l : Str) :
    l.drop (l.takeWhile p).length = l.dropWhile p := by
  induction l with
  | nil => rfl
  | cons a as ih =>
    rw [List.takeWhile_cons, List.dropWhile_cons]
    by_cases h : p a = true
    · rw [if_pos h, if_pos h]
      simpa using ih
    · rw [if_neg h, if_neg h]
      rfl

/-! ## The job-header pattern (C4) -/

theorem job_header_fwd (l : Str) (h : isJobHeader l = true) : JobHeaderShape l := by
  rcases l with _ | ⟨c1, _ | ⟨c2, rest⟩⟩
  · simp [isJobHeader] at h
  · simp [isJobHeader] at h
  · simp only [isJobHeader, Bool.and_eq_true, Bool.not_eq_true', List.isEmpty_eq_false] at h
    obtain ⟨⟨hw1, hw2⟩, hne, hm⟩ := h
    rw [drop_takeWhile_length] at hm
    split at hm
    case _ tail heq =>
      refine ⟨c1, c2, rest.takeWhile isIdentChar,
        (rest.dropWhile isIdentChar).takeWhile isJsWhite, tail, ?_, hw1, hw2, hne,
        fun c hc => List.mem_takeWhile_imp hc, fun c hc => List.mem_takeWhile_imp hc,
        List.all_eq_true.1 hm⟩
      have h1 : (rest.dropWhile isIdentChar).takeWhile isJsWhite ++ ':' :: tail
          = rest.dropWhile isIdentChar := by
        rw [← heq]
        exact List.takeWhile_append_dropWhile _ _
      rw [List.append_assoc, h1, List.takeWhile_append_dropWhile]
    case _ => simp at hm

theorem job_header_bwd (l : Str) (h : JobHeaderShape l) : isJobHeader l = true := by
  obtain ⟨w1, w2, ident, gap, trail, rfl, hw1, hw2, hne, hid, hgap, htr⟩ := h
  simp only [isJobHeader, Bool.and_eq_true, Bool.not_eq_true', List.isEmpty_eq_false]
  have ht : (ident ++ gap ++ ':' :: trail).takeWhile isIdentChar = ident := by
    rw [List.append_assoc, takeWhile_append_all _ hid]
    have hz : (gap ++ ':' :: trail).takeWhile isIdentChar = [] := by
      cases gap with
      | nil => exact takeWhile_nil_of_head (by decide)
      | cons g gs =>
        rw [List.cons_append]
        exact takeWhile_nil_of_head (white_not_ident (hgap g (by simp)))
    rw [hz, List.append_nil]
  refine ⟨⟨hw1, hw2⟩, by rw [ht]; exact hne, ?_⟩
  rw [ht, List.append_assoc, List.drop_left, dropWhile_append_all _ hgap,
    dropWhile_id_of_head (by decide)]
  exact List.all_eq_true.2 htr

/-- C4 counterexample: the code's job-header test accepts a tab-indented
header line and a header with whitespace between the identifier and the
colon, both of which the claimed pattern `^  [A-Za-z0-9_-]+:\s*$`
rejects. -/
theorem job_header_claim_cex :
    isJobHeader ('\t' :: '\t' :: "build:".toList) = true ∧
    claimJobHeader ('\t' :: '\t' :: "build:".toList) = false ∧
    isJobHeader "  build :".toList = true ∧
    claimJobHeader "  build :".toList = false :=
  ⟨by decide, by decide, by decide, by decide⟩

/-- C4 (amended): the scanner recognizes a line as a job header exactly
when it matches `^\s{2}[a-zA-Z0-9_-]+\s*:\s*$` — two JS-whitespace
characters (tabs allowed), an identifier, optional whitespace before the
colon, then only whitespace. -/
theorem job_header_amended (l : Str) : isJobHeader l = true ↔ JobHeaderShape l :=
  ⟨job_header_fwd l, job_header_bwd l⟩

/-! ## Sanitizer bounds (C3, C7) -/

theorem jsRound_bounds {m : ℚ} (h0 : 0 < m) (h1 : m ≤ 1000000) :
    0 ≤ jsRound m ∧ jsRound m ≤ 1000000 := by
  constructor
  · exact Int.le_floor.2 (by push_cast; linarith)
  · have h2 : jsRound m < 1000001 := by
      rw [jsRound, Int.floor_lt]
      push_cast
      linarith
    omega

theorem roundMoney_bounds {b : ℚ} (h0 : 0 < b) (h1 : b ≤ 1000000) :
    0 ≤ roundMoney b ∧ roundMoney b ≤ 1000000 := by
  have hk0 : (0 : ℤ) ≤ jsRound ((b + jsEpsilon) * 100) :=
    Int.le_floor.2 (by norm_num [jsEpsilon]; nlinarith)
  have hk1 : jsRound ((b + jsEpsilon) * 100) ≤ 100000000 := by
    have h2 : jsRound ((b + jsEpsilon) * 100) < 100000001 := by
      rw [jsRound, Int.floor_lt]
      norm_num [jsEpsilon]
      nlinarith
    omega
  unfold roundMoney
  constructor
  · positivity
  · rw [div_le_iff₀ (by norm_num : (0:ℚ) < 100)]
    calc (jsRound ((b + jsEpsilon) * 100) : ℚ) ≤ 100000000 := by exact_mod_cast hk1
    _ = 1000000 * 100 := by norm_num

/-- C3 counterexample: the sanitizer accepts `monthlyRuns = 0.3` and
`budgetUsd = 0.001` (the range checks run before rounding), producing
`monthlyRuns = 0` — outside the claimed `1..1,000,000` — and
`budgetUsd = 0` — not positive. -/
theorem sanitize_bounds_cex :
    sanitizeEstimateInput ⟨.str "jobs:".toList, .num (some (3 / 10)), .num (some (1 / 1000)),
        .str "warn".toList⟩ =
      .ok ⟨"jobs:".toList, 0, 0, .warn⟩ ∧
    ¬(1 ≤ ((⟨"jobs:".toList, 0, 0, .warn⟩ : EstimateInput)).monthlyRuns) ∧
    ¬(0 < ((⟨"jobs:".toList, 0, 0, .warn⟩ : EstimateInput)).budgetUsd) :=
  ⟨by with_unfolding_all decide, by norm_num, by norm_num⟩

/-- C3 (amended): a successfully sanitized input has a non-empty
workflow of at most 100,000 characters, an integer `monthlyRuns` in
`0..1,000,000` (0 is reachable, since rounding happens after the range
check), a cent-rounded `budgetUsd` in `[0, 1,000,000]` (0 is reachable
the same way), and a `warn`-or-`block` policy mode. -/
theorem sanitize_bounds_amended (p : Payload) (r : EstimateInput)
    (h : sanitizeEstimateInput p = .ok r) :
    r.workflowYaml ≠ [] ∧ r.workflowYaml.length ≤ 100000 ∧
    (∃ k : ℤ, r.monthlyRuns = (k : ℚ) ∧ 0 ≤ k ∧ k ≤ 1000000) ∧
    isCents r.budgetUsd ∧ 0 ≤ r.budgetUsd ∧ r.budgetUsd ≤ 1000000 ∧
    (r.policyMode = .warn ∨ r.policyMode = .block) := by
  unfold sanitizeEstimateInput at h
  split at h
  · exact absurd h (by simp)
  case _ hwf =>
    simp only [Bool.or_eq_true, List.isEmpty_eq_true, decide_eq_true_eq, not_or, not_lt] at hwf
    split at h
    · exact absurd h (by simp)
    case _ m hm =>
      split at h
      · exact absurd h (by simp)
      case _ hmb =>
        push_neg at hmb
        split at h
        · exact absurd h (by simp)
        case _ b hb =>
          split at h
          · exact absurd h (by simp)
          case _ hbb =>
            push_neg at hbb
            split at h
            case _ hmode =>
              simp only [Except.ok.injEq] at h
              subst h
              exact ⟨hwf.1, hwf.2, ⟨jsRound m, rfl, (jsRound_bounds hmb.1 hmb.2).1,
                (jsRound_bounds hmb.1 hmb.2).2⟩, roundMoney_isCents b,
                (roundMoney_bounds hbb.1 hbb.2).1, (roundMoney_bounds hbb.1 hbb.2).2, Or.inl rfl⟩
            case _ hmode =>
              split at h
              case _ hmode2 =>
                simp only [Except.ok.injEq] at h
                subst h
                exact ⟨hwf.1, hwf.2, ⟨jsRound m, rfl, (jsRound_bounds hmb.1 hmb.2).1,
                  (jsRound_bounds hmb.1 hmb.2).2⟩, roundMoney_isCents b,
                  (roundMoney_bounds hbb.1 hbb.2).1, (roundMoney_bounds hbb.1 hbb.2).2, Or.inr rfl⟩
              case _ hmode2 => exact absurd h (by simp)

theorem sanitize_bounds_amended_witness :
    ("jobs:".toList : Str) ≠ [] ∧ ("jobs:".toList : Str).length ≤ 100000 ∧
    (∃ k : ℤ, (200 : ℚ) = (k : ℚ) ∧ 0 ≤ k ∧ k ≤ 1000000) ∧
    isCents (20 : ℚ) ∧ (0 : ℚ) ≤ 20 ∧ (20 : ℚ) ≤ 1000000 ∧
    (PolicyMode.warn = PolicyMode.warn ∨ PolicyMode.warn = PolicyMode.block) :=
  sanitize_bounds_amended
    ⟨.str "jobs:".toList, .num (some 200), .num (some 20), .str "warn".toList⟩
    ⟨"jobs:".toList, 200, 20, .warn⟩ (by with_unfolding_all decide)

/-- C7: the sanitizer either returns a validated input or fails with one
of the four closed error codes; concretely it rejects empty workflow
text with `invalid_workflow_yaml`, `monthlyRuns = -1` with
`invalid_monthly_runs`, and `policyMode = "noop"` with
`invalid_policy_mode`. -/
theorem sanitize_error_taxonomy :
    (∀ p : Payload,
      (∃ r, sanitizeEstimateInput p = .ok r) ∨
      sanitizeEstimateInput p = .error .invalid_workflow_yaml ∨
      sanitizeEstimateInput p = .error .invalid_monthly_runs ∨
      sanitizeEstimateInput p = .error .invalid_budget_usd ∨
      sanitizeEstimateInput p = .error .invalid_policy_mode) ∧
    sanitizeEstimateInput ⟨.str [], .num (some 200), .num (some 20), .str "warn".toList⟩ =
      .error .invalid_workflow_yaml ∧
    sanitizeEstimateInput ⟨.str "jobs:".toList, .num (some (-1)), .num (some 20),
        .str "warn".toList⟩ =
      .error .invalid_monthly_runs ∧
    sanitizeEstimateInput ⟨.str "jobs:".toList, .num (some 100), .num (some 20),
        .str "noop".toList⟩ =
      .error .invalid_policy_mode := by
  refine ⟨fun p => ?_, by decide, by with_unfolding_all decide, by with_unfolding_all decide⟩
  rcases h : sanitizeEstimateInput p with e | r
  · cases e
    · exact Or.inr (Or.inl rfl)
    · exact Or.inr (Or.inr (Or.inl rfl))
    · exact Or.inr (Or.inr (Or.inr (Or.inl rfl)))
    · exact Or.inr (Or.inr (Or.inr (Or.inr rfl)))
  · exact Or.inl ⟨r, rfl⟩

/-- C6 (Scenario B): the two-job workflow — `ubuntu-latest` with two
`uses` and one `run` step, `windows-latest` with one `uses` step —
yields exactly two OS groups: linux at 8.0 minutes and $0.06 per run,
windows at 3.5 minutes and $0.06 per run. -/
theorem scenario_b_by_os :
    (estimateWorkflowCost ⟨scenarioBYaml, 100, 50, .warn⟩).byOs =
      [⟨"linux", 1, 3, 8, 6 / 100⟩, ⟨"windows", 1, 1, 7 / 2, 6 / 100⟩] := by
  with_unfolding_all decide

/-! ## The synthetic fallback job (C5) -/

/-- C5: when the scan recognizes no job, the estimate reflects exactly
the synthetic fallback job: 1 job, 3 steps, 8.5 minutes per run, and a
single `linux` entry in `byOs`. -/
theorem fallback_estimate (input : EstimateInput)
    (h : scanLines (splitLines input.workflowYaml) false none [] = []) :
    (estimateWorkflowCost input).summary.jobs = 1 ∧
    (estimateWorkflowCost input).summary.stepCount = 3 ∧
    (estimateWorkflowCost input).summary.minutesPerRun = 17 / 2 ∧
    ∃ e, (estimateWorkflowCost input).byOs = [e] ∧ e.os = "linux" := by
  have hp : parseJobsAndSteps input.workflowYaml = [⟨"linux", 3, 17 / 2⟩] := by
    unfold parseJobsAndSteps
    rw [h]
    rfl
  have hagg : aggregateByOs (parseJobsAndSteps input.workflowYaml)
      = [⟨"linux", 1, 3, 17 / 2, 7 / 100⟩] := by
    rw [hp]
    with_unfolding_all decide
  refine ⟨?_, ?_, ?_, ⟨⟨"linux", 1, 3, 17 / 2, 7 / 100⟩, ?_, rfl⟩⟩ <;>
    simp only [estimateWorkflowCost, hagg] <;> with_unfolding_all decide

theorem fallback_estimate_witness :
    (estimateWorkflowCost ⟨"name: CI".toList, 100, 50, .warn⟩).summary.jobs = 1 ∧
    (estimateWorkflowCost ⟨"name: CI".toList, 100, 50, .warn⟩).summary.stepCount = 3 ∧
    (estimateWorkflowCost ⟨"name: CI".toList, 100, 50, .warn⟩).summary.minutesPerRun = 17 / 2 ∧
    ∃ e, (estimateWorkflowCost ⟨"name: CI".toList, 100, 50, .warn⟩).byOs = [e] ∧
      e.os = "linux" :=
  fallback_estimate ⟨"name: CI".toList, 100, 50, .warn⟩ (by with_unfolding_all decide)

/-! ## Lines before the first job header (C9) -/

theorem not_header_of_third_white {c1 c2 c3 : Char} {rest : Str} (h3 : isJsWhite c3 = true) :
    isJobHeader (c1 :: c2 :: c3 :: rest) = false := by
  simp only [isJobHeader]
  rw [takeWhile_nil_of_head (white_not_ident h3)]
  simp

theorem matchRunsOn_not_header {l : Str} (h : matchRunsOn l ≠ none) : isJobHeader l = false := by
  rcases l with _ | ⟨c1, _ | ⟨c2, _ | ⟨c3, _ | ⟨c4, rest⟩⟩⟩⟩
  · exact absurd rfl h
  · exact absurd rfl h
  · exact absurd rfl h
  · exact absurd rfl h
  · by_cases hc : (isJsWhite c1 && isJsWhite c2 && isJsWhite c3 && isJsWhite c4 &&
        startsWithS "runs-on".toList rest) = true
    · simp only [Bool.and_eq_true] at hc
      exact not_header_of_third_white hc.1.1.2
    · exfalso
      apply h
      simp only [matchRunsOn]
      rw [if_neg hc]

theorem isStepLine_not_header {kw : Str} {l : Str} (h : isStepLine kw l = true) :
    isJobHeader l = false := by
  rcases l with _ | ⟨c1, _ | ⟨c2, _ | ⟨c3, _ | ⟨c4, _ | ⟨c5, _ | ⟨c6, _ | ⟨d, _ | ⟨w, r2⟩⟩⟩⟩⟩⟩⟩⟩
  · simp [isStepLine] at h
  · simp [isStepLine] at h
  · simp [isStepLine] at h
  · simp [isStepLine] at h
  · simp [isStepLine] at h
  · simp [isStepLine] at h
  · simp [isStepLine] at h
  · simp [isStepLine] at h
  · simp only [isStepLine, Bool.and_eq_true] at h
    exact not_header_of_third_white h.1.1.1.1.1.1.2

/-- C9: inside the jobs section, `runs-on:` lines and `- uses:` /
`- run:` step lines seen while no job is open (before the first
recognized job header) are skipped without changing the scanner state:
they start no job and contribute nothing. -/
theorem preheader_lines_ignored (ls rest : List Str) (acc : List PJob)
    (h : ∀ l ∈ ls, matchRunsOn (stripComment l) ≠ none ∨
      isStepLine "uses".toList (stripComment l) = true ∨
      isStepLine "run".toList (stripComment l) = true) :
    scanLines (ls ++ rest) true none acc = scanLines rest true none acc := by
  induction ls with
  | nil => rfl
  | cons l ls ih =>
    have hnh : isJobHeader (stripComment l) = false := by
      rcases h l (by simp) with h1 | h1 | h1
      · exact matchRunsOn_not_header h1
      · exact isStepLine_not_header h1
      · exact isStepLine_not_header h1
    have hrest : ∀ x ∈ ls, matchRunsOn (stripComment x) ≠ none ∨
        isStepLine "uses".toList (stripComment x) = true ∨
        isStepLine "run".toList (stripComment x) = true :=
      fun x hx => h x (by simp [hx])
    rw [List.cons_append]
    simp only [scanLines, Bool.not_true, Bool.false_and, Bool.false_or, hnh]
    by_cases he : (jsTrim (stripComment l)).isEmpty = true
    · simp only [he, if_true, if_false]
      exact ih hrest
    · simp only [he, Bool.false_eq_true, if_false]
      exact ih hrest

theorem preheader_lines_ignored_witness :
    scanLines (["    runs-on: windows-latest".toList, "      - uses: a".toList,
      "      - run: b".toList] ++ ["  build:".toList]) true none [] =
      scanLines ["  build:".toList] true none [] :=
  preheader_lines_ignored _ _ _ (by decide)


/-! ## Structural invariants of the estimate (C10) -/


theorem parseRunsOn_osOk (raw : Str) : osOk (parseRunsOn raw) := by
  unfold parseRunsOn osOk
  split_ifs <;> simp

theorem scanLines_osOk (lines : List Str) (inJobs : Bool) (cur : Option PJob) (acc : List PJob)
    (hacc : ∀ j ∈ acc, osOk j.os) (hcur : ∀ j, cur = some j → osOk j.os) :
    ∀ j ∈ scanLines lines inJobs cur acc, osOk j.os := by
  induction lines generalizing inJobs cur acc with
  | nil =>
    intro j hj
    simp only [scanLines] at hj
    cases cur with
    | none => exact hacc j hj
    | some j0 =>
      rcases List.mem_append.1 hj with h | h
      · exact hacc j h
      · simp only [List.mem_singleton] at h
        subst h
        exact hcur _ rfl
  | cons l rest ih =>
    intro j hj
    simp only [scanLines] at hj
    split at hj
    · exact ih _ _ _ hacc hcur j hj
    · split at hj
      · exact ih _ _ _ hacc hcur j hj
      · split at hj
        · refine ih _ _ _ ?_ ?_ j hj
          · cases cur with
            | none => exact hacc
            | some j0 =>
              intro x hx
              rcases List.mem_append.1 hx with h | h
              · exact hacc x h
              · simp only [List.mem_singleton] at h
                subst h
                exact hcur _ rfl
          · intro x hx
            injection hx with hx
            subst hx
            exact Or.inl rfl
        · split at hj
          · exact ih _ _ _ hacc (fun x hx => Option.noConfusion hx) j hj
          · rename_i j0
            split at hj
            · rename_i v heq
              refine ih _ _ _ hacc ?_ j hj
              intro x hx
              injection hx with hx
              subst hx
              exact parseRunsOn_osOk v
            · split at hj
              · refine ih _ _ _ hacc ?_ j hj
                intro x hx
                injection hx with hx
                subst hx
                exact hcur j0 rfl
              · split at hj
                · refine ih _ _ _ hacc ?_ j hj
                  intro x hx
                  injection hx with hx
                  subst hx
                  exact hcur j0 rfl
                · refine ih _ _ _ hacc ?_ j hj
                  intro x hx
                  injection hx with hx
                  subst hx
                  exact hcur j0 rfl



theorem parseJobsAndSteps_osOk (y : Str) : ∀ j ∈ parseJobsAndSteps y, osOk j.os := by
  unfold parseJobsAndSteps
  split
  · intro j hj
    simp only [List.mem_singleton] at hj
    subst hj
    exact Or.inl rfl
  · exact scanLines_osOk _ _ _ _ (fun j h => nomatch h) (fun j h => Option.noConfusion h)

theorem parseJobsAndSteps_ne_nil (y : Str) : parseJobsAndSteps y ≠ [] := by
  unfold parseJobsAndSteps
  split
  · simp
  case _ h => simpa [List.isEmpty_eq_true] using h

theorem updateOrAppend_ne_nil (acc : List OsEstimate) (j : PJob) : updateOrAppend acc j ≠ [] := by
  cases acc with
  | nil => simp [updateOrAppend]
  | cons e es =>
    unfold updateOrAppend
    split <;> simp

theorem updateOrAppend_pres {acc : List OsEstimate} {j : PJob}
    (hacc : ∀ e ∈ acc, osOk e.os ∧ 1 ≤ e.jobs) (hj : osOk j.os) :
    ∀ e ∈ updateOrAppend acc j, osOk e.os ∧ 1 ≤ e.jobs := by
  induction acc with
  | nil =>
    intro e he
    simp only [updateOrAppend, List.mem_singleton] at he
    subst he
    exact ⟨hj, le_refl 1⟩
  | cons e0 es ih =>
    intro e he
    unfold updateOrAppend at he
    split at he
    · rcases List.mem_cons.1 he with rfl | hmem
      · exact ⟨(hacc e0 (by simp)).1, by simp⟩
      · exact hacc e (List.mem_cons_of_mem _ hmem)
    · rcases List.mem_cons.1 he with rfl | hmem
      · exact hacc e (by simp)
      · exact ih (fun x hx => hacc x (List.mem_cons_of_mem _ hx)) e hmem

theorem updateOrAppend_keys (acc : List OsEstimate) (j : PJob) :
    (updateOrAppend acc j).map OsEstimate.os =
      if j.os ∈ acc.map OsEstimate.os then acc.map OsEstimate.os
      else acc.map OsEstimate.os ++ [j.os] := by
  induction acc with
  | nil => simp [updateOrAppend]
  | cons e0 es ih =>
    unfold updateOrAppend
    split
    case _ heq =>
      simp [heq]
    case _ hne =>
      simp only [List.map_cons, ih]
      by_cases hmem : j.os ∈ es.map OsEstimate.os
      · rw [if_pos hmem, if_pos (List.mem_cons_of_mem _ hmem)]
      · rw [if_neg hmem, if_neg ?_, List.cons_append]
        intro hc
        rcases List.mem_cons.1 hc with hc1 | hc2
        · exact hne hc1.symm
        · exact hmem hc2

theorem foldl_upd_pres (jobs : List PJob) (acc : List OsEstimate)
    (hacc : ∀ e ∈ acc, osOk e.os ∧ 1 ≤ e.jobs) (hjobs : ∀ j ∈ jobs, osOk j.os) :
    ∀ e ∈ jobs.foldl updateOrAppend acc, osOk e.os ∧ 1 ≤ e.jobs := by
  induction jobs generalizing acc with
  | nil => exact hacc
  | cons j js ih =>
    rw [List.foldl_cons]
    exact ih _ (updateOrAppend_pres hacc (hjobs j (by simp)))
      (fun x hx => hjobs x (List.mem_cons_of_mem _ hx))

theorem foldl_upd_nodup (jobs : List PJob) (acc : List OsEstimate)
    (h : (acc.map OsEstimate.os).Nodup) :
    ((jobs.foldl updateOrAppend acc).map OsEstimate.os).Nodup := by
  induction jobs generalizing acc with
  | nil => exact h
  | cons j js ih =>
    rw [List.foldl_cons]
    refine ih _ ?_
    rw [updateOrAppend_keys]
    split
    · exact h
    case _ hmem =>
      rw [List.nodup_append]
      refine ⟨h, List.nodup_singleton _, ?_⟩
      intro a ha hb
      simp only [List.mem_singleton] at hb
      subst hb
      exact hmem ha

theorem foldl_upd_ne_nil (jobs : List PJob) (acc : List OsEstimate)
    (h : jobs ≠ [] ∨ acc ≠ []) : jobs.foldl updateOrAppend acc ≠ [] := by
  induction jobs generalizing acc with
  | nil =>
    rcases h with h | h
    · exact absurd rfl h
    · exact h
  | cons j js ih =>
    rw [List.foldl_cons]
    exact ih _ (Or.inr (updateOrAppend_ne_nil _ _))

theorem aggregateByOs_pres (jobs : List PJob) (hjobs : ∀ j ∈ jobs, osOk j.os) :
    ∀ e ∈ aggregateByOs jobs, osOk e.os ∧ 1 ≤ e.jobs := by
  intro e he
  unfold aggregateByOs at he
  obtain ⟨e0, he0, rfl⟩ := List.mem_map.1 he
  exact foldl_upd_pres jobs [] (fun x hx => nomatch hx) hjobs e0 he0

theorem aggregateByOs_keys (jobs : List PJob) :
    (aggregateByOs jobs).map OsEstimate.os
      = (jobs.foldl updateOrAppend []).map OsEstimate.os := by
  unfold aggregateByOs
  rw [List.map_map]
  rfl

theorem aggregateByOs_ne_nil (jobs : List PJob) (h : jobs ≠ []) : aggregateByOs jobs ≠ [] := by
  unfold aggregateByOs
  intro hc
  exact foldl_upd_ne_nil jobs [] (Or.inl h) (by simpa using congrArg List.length hc)

theorem one_le_sum_of_mem {l : List Nat} (hne : l ≠ []) (h : ∀ x ∈ l, 1 ≤ x) : 1 ≤ l.sum := by
  cases l with
  | nil => exact absurd rfl hne
  | cons a as =>
    rw [List.sum_cons]
    have := h a (by simp)
    omega

/-- C10: every estimate has a non-empty `byOs` list whose entries carry
one of the three known OS values, each OS appearing at most once, and a
total job count of at least 1. -/
theorem estimate_result_invariants (input : EstimateInput) :
    (estimateWorkflowCost input).byOs ≠ [] ∧
    (∀ e ∈ (estimateWorkflowCost input).byOs, osOk e.os) ∧
    ((estimateWorkflowCost input).byOs.map OsEstimate.os).Nodup ∧
    1 ≤ (estimateWorkflowCost input).summary.jobs := by
  have hbyos : (estimateWorkflowCost input).byOs
      = aggregateByOs (parseJobsAndSteps input.workflowYaml) := by
    simp only [estimateWorkflowCost]
  have hjobs' := parseJobsAndSteps_osOk input.workflowYaml
  have hne := aggregateByOs_ne_nil _ (parseJobsAndSteps_ne_nil input.workflowYaml)
  refine ⟨by rw [hbyos]; exact hne, ?_, ?_, ?_⟩
  · rw [hbyos]
    exact fun e he => (aggregateByOs_pres _ hjobs' e he).1
  · rw [hbyos, aggregateByOs_keys]
    exact foldl_upd_nodup _ [] (by simp)
  · have hj : (estimateWorkflowCost input).summary.jobs
        = ((aggregateByOs (parseJobsAndSteps input.workflowYaml)).map OsEstimate.jobs).sum := by
      simp only [estimateWorkflowCost]
      rw [foldl_addEntry_jobs]
      simp
    rw [hj]
    refine one_le_sum_of_mem ?_ ?_
    · intro hc
      exact hne (by simpa using congrArg List.length hc)
    · intro x hx
      obtain ⟨e, he, rfl⟩ := List.mem_map.1 hx
      exact (aggregateByOs_pres _ hjobs' e he).2

end CostGuard
